import Mathlib

/-!
A formal model of the HPO (hyper-parameter optimization) problem wrapper of
this repository (`src/problems/hpo_wrapper.py`): the `HPOFitnessMonitor`
running-minimum fitness tracker, the `HPOProblemWrapper` setup pipeline
(monitor validation, identity-based monitor key resolution, choice of the
first-step function) and its `evaluate` rollout (hyper-parameter validation,
state cloning and overwriting, sequential batched stepping, fitness read-out),
together with theorems about batch independence, validation, monotonicity and
frame conditions.

The core batching and tracing machinery (`use_state`, `vmap`, `jit`) is not
part of the sources here; where its behaviour is needed it is modelled from
the specification, and each such definition says so in its documentation.
-/

namespace HPOW

variable {V α β : Type} {n : Nat}

/-- A tensor-like state entry: `isParam` records whether the entry is a
learnable parameter (`torch.nn.Parameter`) as opposed to a plain buffer, and
`val` is its payload. -/
structure TValue (α : Type) where
  isParam : Bool
  val : α
  deriving DecidableEq, Repr

/-- Map over the payload of a state entry, keeping its parameter flag. -/
def TValue.map (f : α → β) (t : TValue α) : TValue β := ⟨t.isParam, f t.val⟩

/-- A single-instance state snapshot: an insertion-ordered mapping from dotted
attribute paths to tagged tensor values (a python `dict`). -/
abbrev SState (V : Type) := List (String × TValue V)

/-- A batched state over `n` instances: the same key set, but every value
gains a leading instance dimension, modelled as a function `Fin n → V`. -/
abbrev BState (n : Nat) (V : Type) := List (String × TValue (Fin n → V))

/-- Python dict lookup: the value of the first entry with the given key. -/
def lookupKV (k : String) : List (String × β) → Option β
  | [] => none
  | kv :: rest => if kv.1 = k then some kv.2 else lookupKV k rest

/-- Map a function over every value of a keyed list, keeping keys and order. -/
def mapVals (g : α → β) (l : List (String × α)) : List (String × β) :=
  l.map fun kv => (kv.1, g kv.2)

/-- Instance `i`'s slice of a batched state: every batched tensor is indexed
at `i`; keys and parameter flags are unchanged. -/
def slice (bs : BState n V) (i : Fin n) : SState V :=
  mapVals (fun tv => tv.map fun t => t i) bs

/-- Python `dict.update`: keys already present are overwritten in place,
new keys are appended in order. -/
def dictUpdate (s u : List (String × β)) : List (String × β) :=
  (s.map fun kv =>
    match lookupKV kv.1 u with
    | some v => (kv.1, v)
    | none => kv)
  ++ u.filter fun kv => (lookupKV kv.1 s).isNone

theorem lookupKV_mapVals (g : α → β) (l : List (String × α)) (k : String) :
    lookupKV k (mapVals g l) = (lookupKV k l).map g := by
  induction l with
  | nil => rfl
  | cons kv rest ih =>
    by_cases h : kv.1 = k <;> simp [mapVals, lookupKV, h] at ih ⊢ <;> simpa [mapVals] using ih

theorem map_filter_comm (f : α → β) (p : α → Bool) (q : β → Bool)
    (h : ∀ x, q (f x) = p x) (l : List α) :
    (l.filter p).map f = (l.map f).filter q := by
  induction l with
  | nil => rfl
  | cons a t ih =>
    cases hp : p a <;> simp [List.filter, hp, h a, ih]

theorem mapVals_dictUpdate (g : α → β) (s u : List (String × α)) :
    mapVals g (dictUpdate s u) = dictUpdate (mapVals g s) (mapVals g u) := by
  unfold dictUpdate mapVals
  rw [List.map_append, List.map_map, List.map_map]
  congr 1
  · apply List.map_congr_left
    intro kv _
    cases h : lookupKV kv.1 u with
    | none =>
      have : lookupKV kv.1 (List.map (fun kv => (kv.1, g kv.2)) u) = none := by
        simpa [mapVals, h] using lookupKV_mapVals g u kv.1
      simp [Function.comp, h, this]
    | some v =>
      have : lookupKV kv.1 (List.map (fun kv => (kv.1, g kv.2)) u) = some (g v) := by
        simpa [mapVals, h] using lookupKV_mapVals g u kv.1
      simp [Function.comp, h, this]
  · apply map_filter_comm
    intro kv
    have : lookupKV kv.1 (List.map (fun kv => (kv.1, g kv.2)) s) = (lookupKV kv.1 s).map g := by
      simpa [mapVals] using lookupKV_mapVals g s kv.1
    rw [this]
    cases lookupKV kv.1 s <;> rfl

theorem slice_dictUpdate (s u : BState n V) (i : Fin n) :
    slice (dictUpdate s u) i = dictUpdate (slice s i) (slice u i) :=
  mapVals_dictUpdate _ s u

/-- Read key `k` from a single-instance state, with a default when absent. -/
def lookupD (s : SState V) (k : String) (d : V) : V :=
  match lookupKV k s with
  | some tv => tv.val
  | none => d

/-- Modelled from the spec: the core module's `vmap` batch lifter is not among
the given sources. Per the spec, the vmapped step applies the single-instance
transition independently to each per-instance slice and re-stacks the results
along the leading axis; re-stacking here follows the input state's key
structure (traced transitions preserve the key set, on which this coincides
with slice-wise application), and `jit` compilation is semantically the
identity. -/
def vmapF (f : SState V → SState V) (bs : BState n V) : BState n V :=
  bs.map fun kv =>
    (kv.1, ⟨kv.2.isParam, fun i => lookupD (f (slice bs i)) kv.1 (kv.2.val i)⟩)

/-- The effect of one batched step on a single instance slice. -/
def stepSlice (f : SState V → SState V) (s : SState V) : SState V :=
  s.map fun kv => (kv.1, ⟨kv.2.isParam, lookupD (f s) kv.1 kv.2.val⟩)

theorem slice_vmapF (f : SState V → SState V) (bs : BState n V) (i : Fin n) :
    slice (vmapF f bs) i = stepSlice f (slice bs i) := by
  unfold slice vmapF stepSlice mapVals
  rw [List.map_map, List.map_map]
  congr 1

/-- The `for _ in range(k)` loop of `evaluate`: apply `F` to the state `k`
times, each call consuming the previous call's output. -/
def stepLoop (F : α → α) : Nat → α → α
  | 0, s => s
  | k + 1, s => stepLoop F k (F s)

theorem stepLoop_eq_iterate (F : α → α) (k : Nat) (s : α) :
    stepLoop F k s = F^[k] s := by
  induction k generalizing s with
  | zero => rfl
  | succ k ih => rw [stepLoop, ih, Function.iterate_succ_apply]

theorem slice_stepLoop (f : SState V → SState V) (k : Nat) (bs : BState n V) (i : Fin n) :
    slice (stepLoop (vmapF f) k bs) i = stepLoop (stepSlice f) k (slice bs i) := by
  induction k generalizing bs with
  | zero => rfl
  | succ k ih => rw [stepLoop, stepLoop, ih, slice_vmapF]

/-- The HPO problem wrapper as it stands after `setup`: rollout length, the
traced single-instance step and first-step transitions, the resolved state key
of the monitor's `best_fitness` buffer, and the stored batched initial
state. -/
structure HPOProblemWrapper (n : Nat) (V : Type) where
  iterations : Nat
  stepF : SState V → SState V
  initStepF : SState V → SState V
  fitKey : String
  init_state : BState n V

/-- The hyper-parameter validation loop at the head of
`HPOProblemWrapper.evaluate`: iterate the supplied entries in order and return
the message of the first failing assertion, if any — the key must be present
in the stored initial batched state and both the stored and the supplied
values must be learnable parameters. -/
def checkHyperParams (init hp : BState n V) : Option String :=
  hp.findSome? fun kv =>
    match lookupKV kv.1 init with
    | none => some ("key " ++ kv.1 ++ " should be in state dict of workflow")
    | some tv =>
      if tv.isParam && kv.2.isParam then none
      else some ("key " ++ kv.1 ++ " should correspond to a Parameter")

/-- The compiled fitness-read function, specialized to the concrete
`HPOFitnessMonitor` of this file: rebuilding the monitor state from the
resolved keys and calling `tell_fitness` returns the batched `best_fitness`
tensor, i.e. the value stored under the resolved key `fitKey`; `none` models
the `KeyError` raised when that key is absent from the batched state. -/
def getMonitorFitness (fitKey : String) (bs : BState n V) : Option (Fin n → V) :=
  (lookupKV fitKey bs).map TValue.val

/-- `HPOProblemWrapper.evaluate`: validate the supplied hyper-parameters,
clone the stored initial batched state and overwrite it with them, apply the
first-step function once, apply the ordinary step `iterations - 1` more
times sequentially, and read the fitness out of the final state. The result
`Fin n → V` is the per-instance fitness tensor of shape given by
`num_instances`. -/
def HPOProblemWrapper.evaluate (w : HPOProblemWrapper n V) (hp : BState n V) :
    Except String (Fin n → V) :=
  match checkHyperParams w.init_state hp with
  | some e => Except.error e
  | none =>
    match getMonitorFitness w.fitKey
        (stepLoop (vmapF w.stepF) (w.iterations - 1)
          (vmapF w.initStepF (dictUpdate w.init_state hp))) with
    | some fit => Except.ok fit
    | none => Except.error "monitor state key missing from rollout state"

/-- `HPOProblemWrapper.extract_parameters`: filter a state snapshot down to
only its learnable-parameter entries, keeping keys, values and order. -/
def HPOProblemWrapper.extract_parameters (state : List (String × TValue α)) :
    List (String × TValue α) :=
  state.filter fun kv => kv.2.isParam

/-- A fitness tensor as passed to `HPOFitnessMonitor.pre_tell`: either a
one-dimensional tensor (single-objective) or a higher-dimensional one
(multi-objective). -/
inductive FitTensor (α : Type) where
  | dim1 : List α → FitTensor α
  | higher : List (List α) → FitTensor α
  deriving DecidableEq, Repr

/-- Python `str.capitalize` on code points: the first character is
upper-cased, all following characters are lower-cased (ASCII case mapping,
which is what the relevant strings use). -/
def pyLowerChar (c : Nat) : Nat := if 65 ≤ c ∧ c ≤ 90 then c + 32 else c

/-- ASCII upper-casing of one code point, used for the first character of
`pyCapitalize`. -/
def pyUpperChar (c : Nat) : Nat := if 97 ≤ c ∧ c ≤ 122 then c - 32 else c

/-- Python `str.capitalize` on a string of code points. -/
def pyCapitalize : List Nat → List Nat
  | [] => []
  | c :: cs => pyUpperChar c :: cs.map pyLowerChar

/-- The code points of the string IGD. -/
def strIGD : List Nat := [73, 71, 68]

/-- The code points of the string HV. -/
def strHV : List Nat := [72, 86]

/-- The configuration produced by `HPOFitnessMonitor.__init__`. -/
structure HPOFitnessMonitorCfg where
  multi_obj_indicator : Option (List Nat)
  deriving DecidableEq, Repr

/-- `HPOFitnessMonitor.__init__`: `None` is accepted as is; a string argument
is first normalized with `str.capitalize` and then required to be a member of
the list containing IGD and HV, an `AssertionError` (`none` here) being raised
otherwise. -/
def HPOFitnessMonitor.construct (ind : Option (List Nat)) : Option HPOFitnessMonitorCfg :=
  match ind with
  | none => some ⟨none⟩
  | some s =>
    let c := pyCapitalize s
    if c = strIGD ∨ c = strHV then some ⟨some c⟩ else none

/-- An `HPOFitnessMonitor` after `setup`: the stored indicator together with
the `best_fitness` buffer. `⊤` models `torch.inf`, the initial value. -/
structure HPOFitnessMonitor (α : Type) where
  multi_obj_indicator : Option (List Nat)
  best_fitness : WithTop α

/-- `HPOFitnessMonitor.setup`: create the `best_fitness` buffer holding
`torch.inf`. -/
def HPOFitnessMonitorCfg.setup (α : Type) (cfg : HPOFitnessMonitorCfg) :
    HPOFitnessMonitor α :=
  ⟨cfg.multi_obj_indicator, ⊤⟩

/-- `torch.min` over a one-dimensional tensor: `none` models the error raised
on an empty tensor. -/
def torchMin [LinearOrder α] : List α → Option α
  | [] => none
  | x :: xs => some (xs.foldl min x)

/-- `HPOFitnessMonitor.pre_tell`: for a one-dimensional fitness tensor update
the running minimum `best_fitness = min(min(fitness), best_fitness)`; for a
higher-dimensional tensor do nothing (the multi-objective branch is an
unimplemented placeholder). -/
def HPOFitnessMonitor.pre_tell [LinearOrder α] (m : HPOFitnessMonitor α)
    (fitness : FitTensor α) : Option (HPOFitnessMonitor α) :=
  match fitness with
  | .dim1 l => (torchMin l).map fun mn =>
      { m with best_fitness := min (mn : WithTop α) m.best_fitness }
  | .higher _ => some m

/-- `HPOFitnessMonitor.tell_fitness`: return the current `best_fitness`. -/
def HPOFitnessMonitor.tell_fitness (m : HPOFitnessMonitor α) : WithTop α :=
  m.best_fitness

/-- Run a sequence of single-objective `pre_tell` calls in order. -/
def preTellRun [LinearOrder α] (m : HPOFitnessMonitor α) (fs : List (List α)) :
    Option (HPOFitnessMonitor α) :=
  fs.foldlM (fun m l => m.pre_tell (FitTensor.dim1 l)) m

/-- The workflow object as `HPOProblemWrapper.setup` sees it. Python object
identities are modelled as natural-number references: `monitorState` is the
monitor's `state_dict(keep_vars=True)` (attribute name, identity of the held
tensor) and `initStateR` is the non-batched initial state snapshot obtained
from `use_state(lambda: workflow.step).init_state(clone=False)` (state key,
identity of the held tensor). `monitorIsHPOMonitor` is the result of
`isinstance(monitor, HPOMonitor)`; `initStepOverride` is `some` of the traced
single-instance `init_step` transition exactly when
`type(workflow).init_step` differs from the default `Workflow.init_step`. -/
structure WorkflowModel (V : Type) where
  monitorIsHPOMonitor : Bool
  monitorState : List (String × Nat)
  initStateR : List (String × Nat)
  stepF : SState V → SState V
  initStepOverride : Option (SState V → SState V)

/-- The monitor-key resolution loop of `HPOProblemWrapper.setup`: for every
top-level state key in order, scan the monitor's state dictionary for the
first value that is the same underlying object (`is`, i.e. identical
reference) as the state entry's value, and record that match. Values are never
compared by content. -/
def buildMonitorKeys (initS monS : List (String × Nat)) : List (String × String) :=
  initS.filterMap fun kv =>
    (monS.find? fun skv => skv.2 == kv.2).map fun skv => (kv.1, skv.1)

/-- What `HPOProblemWrapper.setup` produces: the resolved monitor key map and
the compiled batched step and first-step functions. -/
structure SetupResult (n : Nat) (V : Type) where
  monitorKeys : List (String × String)
  workflowStepB : BState n V → BState n V
  workflowInitStepB : BState n V → BState n V

/-- `HPOProblemWrapper.setup`: assert the workflow monitor is an
`HPOMonitor`, resolve the monitor's state keys by object identity and assert
that every monitor state entry was resolved (the two counts agree), compile
the batched workflow step, and choose the first-step function — the ordinary
compiled step when the workflow keeps the default `init_step`, a separately
traced, batched and compiled `init_step` otherwise. Tracing, batching and
compilation of a transition are modelled from the spec as `vmapF` (the given
sources do not contain `use_state`, `vmap` or `jit`). -/
def HPOProblemWrapper.setup (n : Nat) (wf : WorkflowModel V) :
    Except String (SetupResult n V) :=
  if wf.monitorIsHPOMonitor = false then
    Except.error "Expect workflow monitor to be HPOMonitor"
  else
    let monitorKeys := buildMonitorKeys wf.initStateR wf.monitorState
    if monitorKeys.length = wf.monitorState.length then
      let stepB := vmapF wf.stepF
      match wf.initStepOverride with
      | none => Except.ok ⟨monitorKeys, stepB, stepB⟩
      | some f => Except.ok ⟨monitorKeys, stepB, vmapF f⟩
    else Except.error "Expect monitor to have all of its state in the workflow state"

/-- A heap of tensor storages: cell `r` holds the contents of the tensor
object with identity `r`. -/
abbrev Store (V : Type) := List V

/-- A state whose values are references into a `Store`, for reasoning about
aliasing across the `.copy()` boundary of `evaluate`. -/
abbrev RState := List (String × TValue Nat)

/-- Every cell of `σ` holds the same contents in `σ'`; new cells may have been
appended after `σ`. -/
def preservedOn (σ σ' : Store V) : Prop :=
  ∀ i, i < σ.length → σ'[i]? = σ[i]?

/-- Modelled from the spec: a traced-and-compiled step function (`use_state`
composed with `vmap` and `jit` is not among the given sources). It may read
the heap and allocate fresh tensors for its output state, but it never
mutates a tensor that already exists — the spec requires traced execution to
leave no persistent mutation behind and state containers to be pure values at
the `.copy()` boundary. -/
structure TracedStep (V : Type) where
  run : Store V × RState → Store V × RState
  alloc_only : ∀ σ s, preservedOn σ (run (σ, s)).1

/-- The sequential stepping loop of `evaluate`, threading the heap. -/
def heapLoop (step : TracedStep V) : Nat → Store V × RState → Store V × RState
  | 0, p => p
  | k + 1, p => heapLoop step k (step.run p)

/-- `HPOProblemWrapper.evaluate` at the heap level: shallow-copy the stored
initial batched state (`dict.copy` — a fresh mapping holding the same tensor
references), overwrite it with the supplied hyper-parameters, run the
first step once and the ordinary step `iterations - 1` times, and read the
fitness reference out of the final state. The stored `init_state` mapping
itself is never touched; the heap is returned so that the fate of the tensors
it references can be observed. -/
def evaluateHeap (iterations : Nat) (initStep step : TracedStep V) (fitKey : String)
    (σ0 : Store V) (init_state hp : RState) : Store V × Option Nat :=
  let st0 := dictUpdate init_state hp
  let p := heapLoop step (iterations - 1) (initStep.run (σ0, st0))
  (p.1, (lookupKV fitKey p.2).map TValue.val)

theorem preservedOn_trans {σ σ' σ'' : Store V}
    (h1 : preservedOn σ σ') (h2 : preservedOn σ' σ'') : preservedOn σ σ'' := by
  intro i hi
  have e1 := h1 i hi
  have hlt : i < σ'.length := by
    by_contra hge
    rw [List.getElem?_eq_none (Nat.le_of_not_lt hge)] at e1
    exact absurd e1.symm (by simp [List.getElem?_eq_getElem hi])
  rw [h2 i hlt, e1]

theorem preservedOn_heapLoop (step : TracedStep V) (k : Nat) (p : Store V × RState) :
    preservedOn p.1 (heapLoop step k p).1 := by
  induction k generalizing p with
  | zero => exact fun i hi => rfl
  | succ k ih =>
    exact preservedOn_trans (by simpa using step.alloc_only p.1 p.2) (ih (step.run p))

/-- C7: for every state snapshot, `extract_parameters` returns exactly the
learnable-parameter entries — each under its original key with its original
value — and none of the plain buffer entries, preserving their order. -/
theorem c7_extract_parameters_filter (s : List (String × TValue α)) :
    (∀ k v, (k, v) ∈ HPOProblemWrapper.extract_parameters s ↔
      ((k, v) ∈ s ∧ v.isParam = true)) ∧
    (HPOProblemWrapper.extract_parameters s).Sublist s := by
  refine ⟨fun k v => ?_, List.filter_sublist s⟩
  simp [HPOProblemWrapper.extract_parameters, List.mem_filter]

theorem pyLowerChar_ne_upper (x u : Nat) (h1 : 65 ≤ u) (h2 : u ≤ 90) :
    pyLowerChar x ≠ u := by
  unfold pyLowerChar
  split <;> omega

theorem pyCapitalize_ne_IGD_HV (s : List Nat) :
    pyCapitalize s ≠ strIGD ∧ pyCapitalize s ≠ strHV := by
  match s with
  | [] => exact ⟨by simp [pyCapitalize, strIGD], by simp [pyCapitalize, strHV]⟩
  | [c] => constructor <;> simp [pyCapitalize, strIGD, strHV]
  | c :: c2 :: cs2 =>
    refine ⟨fun h => ?_, fun h => ?_⟩
    · simp [pyCapitalize, strIGD] at h
      exact pyLowerChar_ne_upper c2 71 (by omega) (by omega) h.2.1
    · simp [pyCapitalize, strHV] at h
      exact pyLowerChar_ne_upper c2 86 (by omega) (by omega) h.2.1

/-- C10: constructing `HPOFitnessMonitor` with any non-`None` string argument
raises an assertion error — including the documented IGD and HV — because the
constructor capitalizes the string (lower-casing every character after the
first) before checking membership in the all-uppercase list, so no string can
pass; only `multi_obj_indicator=None` constructs successfully. -/
theorem c10_construct_rejects_every_string :
    (∀ s : List Nat, HPOFitnessMonitor.construct (some s) = none) ∧
    HPOFitnessMonitor.construct none = some ⟨none⟩ := by
  refine ⟨fun s => ?_, rfl⟩
  have h := pyCapitalize_ne_IGD_HV s
  simp [HPOFitnessMonitor.construct, h.1, h.2]

/-- C9: `setup` validates that the workflow monitor is an `HPOMonitor` and
fails fatally otherwise — before resolving monitor keys or tracing and
compiling anything, the error being the same whatever the rest of the
workflow model contains. -/
theorem c9_setup_requires_hpo_monitor (wf : WorkflowModel V)
    (h : wf.monitorIsHPOMonitor = false) :
    HPOProblemWrapper.setup n wf =
      Except.error "Expect workflow monitor to be HPOMonitor" := by
  simp [HPOProblemWrapper.setup, h]

/-- A concrete workflow model whose monitor is not an `HPOMonitor`. -/
def wfNoMon : WorkflowModel Int := ⟨false, [], [], id, none⟩

theorem c9_setup_requires_hpo_monitor_witness :
    HPOProblemWrapper.setup 2 wfNoMon =
      Except.error "Expect workflow monitor to be HPOMonitor" :=
  c9_setup_requires_hpo_monitor wfNoMon rfl

/-- C6: when the workflow keeps the default `init_step`, `setup` reuses the
compiled batched step as the first-step function of `evaluate`; when the
workflow overrides `init_step`, that override is separately traced, batched
and compiled, and the resulting function replaces the first ordinary step. -/
theorem c6_setup_init_step_choice (wf : WorkflowModel V) (r : SetupResult n V)
    (h : HPOProblemWrapper.setup n wf = Except.ok r) :
    (wf.initStepOverride = none → r.workflowInitStepB = r.workflowStepB) ∧
    (∀ f, wf.initStepOverride = some f →
      r.workflowInitStepB = vmapF f ∧ r.workflowStepB = vmapF wf.stepF) := by
  simp only [HPOProblemWrapper.setup] at h
  split at h
  · simp at h
  · split at h
    · split at h
      · rename_i hnone
        have hr := Except.ok.inj h
        subst hr
        refine ⟨fun _ => rfl, fun f hf => ?_⟩
        rw [hnone] at hf
        cases hf
      · rename_i f0 hsome
        have hr := Except.ok.inj h
        subst hr
        refine ⟨fun h0 => ?_, fun f hf => ?_⟩
        · rw [hsome] at h0
          cases h0
        · rw [hsome] at hf
          injection hf with hf
          subst hf
          exact ⟨rfl, rfl⟩
    · simp at h

/-- A concrete workflow model overriding `init_step`. -/
def wfOverride : WorkflowModel Int := ⟨true, [], [], id, some id⟩

theorem c6_setup_init_step_choice_witness :
    (wfOverride.initStepOverride = none →
      (⟨[], vmapF id, vmapF id⟩ : SetupResult 2 Int).workflowInitStepB =
        (⟨[], vmapF id, vmapF id⟩ : SetupResult 2 Int).workflowStepB) ∧
    (∀ f, wfOverride.initStepOverride = some f →
      (⟨[], vmapF id, vmapF id⟩ : SetupResult 2 Int).workflowInitStepB = vmapF f ∧
      (⟨[], vmapF id, vmapF id⟩ : SetupResult 2 Int).workflowStepB = vmapF wfOverride.stepF) :=
  c6_setup_init_step_choice wfOverride ⟨[], vmapF id, vmapF id⟩ rfl

/-- C5: `evaluate` validates its input before running any rollout step — if
some supplied entry has a key absent from the stored initial batched state, or
the stored value under that key is not a learnable parameter, or the supplied
value is not a learnable parameter, then `evaluate` fails with a configuration
error, and its result is the same whatever the step functions are, so no step
function is invoked. -/
theorem c5_evaluate_validates_input (w : HPOProblemWrapper n V) (hp : BState n V)
    (k : String) (v : TValue (Fin n → V)) (hmem : (k, v) ∈ hp)
    (hbad : lookupKV k w.init_state = none ∨
      (∃ tv, lookupKV k w.init_state = some tv ∧
        (tv.isParam = false ∨ v.isParam = false))) :
    (∃ e, w.evaluate hp = Except.error e) ∧
    (∀ f g, HPOProblemWrapper.evaluate
      ⟨w.iterations, f, g, w.fitKey, w.init_state⟩ hp = w.evaluate hp) := by
  have hchk : checkHyperParams w.init_state hp ≠ none := by
    intro hnone
    unfold checkHyperParams at hnone
    rw [List.findSome?_eq_none_iff] at hnone
    have hkv := hnone (k, v) hmem
    rcases hbad with hmiss | ⟨tv, htv, hflag⟩
    · simp [hmiss] at hkv
    · rw [htv] at hkv
      rcases hflag with hf | hf <;> simp [hf] at hkv
  rcases he : checkHyperParams w.init_state hp with _ | e
  · exact absurd he hchk
  · exact ⟨⟨e, by simp [HPOProblemWrapper.evaluate, he]⟩,
      fun f g => by simp [HPOProblemWrapper.evaluate, he]⟩

/-- A stored initial batched state over two instances with a parameter entry,
a buffer entry and a monitor fitness entry. -/
def witState : BState 2 Int :=
  [("p", ⟨true, fun _ => 1⟩), ("b", ⟨false, fun _ => 2⟩), ("f", ⟨false, fun _ => 5⟩)]

/-- A concrete configured wrapper over `witState`. -/
def witWrapper : HPOProblemWrapper 2 Int := ⟨1, id, id, "f", witState⟩

theorem c5_evaluate_validates_input_witness :
    (∃ e, witWrapper.evaluate [("b", ⟨true, fun _ => 3⟩)] = Except.error e) ∧
    (∀ f g, HPOProblemWrapper.evaluate
      ⟨witWrapper.iterations, f, g, witWrapper.fitKey, witWrapper.init_state⟩
        [("b", ⟨true, fun _ => 3⟩)] =
      witWrapper.evaluate [("b", ⟨true, fun _ => 3⟩)]) :=
  c5_evaluate_validates_input witWrapper [("b", ⟨true, fun _ => 3⟩)] "b"
    ⟨true, fun _ => 3⟩ (by simp)
    (Or.inr ⟨⟨false, fun _ => 2⟩, rfl, Or.inl rfl⟩)

/-- C8: frame condition of `evaluate` — a call has no observable effect
besides its returned fitness: every tensor cell that exists before the call
(in particular every tensor referenced by the stored initial batched state)
holds the same contents afterwards, because the rollout operates on a
`.copy()` of the snapshot and traced steps only allocate, never mutate. -/
theorem c8_evaluate_frame (iterations : Nat) (initStep step : TracedStep V)
    (fitKey : String) (σ0 : Store V) (init_state hp : RState) :
    preservedOn σ0 (evaluateHeap iterations initStep step fitKey σ0 init_state hp).1 ∧
    ∀ kv ∈ init_state, kv.2.val < σ0.length →
      (evaluateHeap iterations initStep step fitKey σ0 init_state hp).1[kv.2.val]? =
        σ0[kv.2.val]? := by
  have hmain : preservedOn σ0
      (evaluateHeap iterations initStep step fitKey σ0 init_state hp).1 := by
    unfold evaluateHeap
    exact preservedOn_trans (by simpa using initStep.alloc_only σ0 _)
      (preservedOn_heapLoop step _ _)
  exact ⟨hmain, fun kv _ hlt => hmain kv.2.val hlt⟩

/-- A concrete allocation-only traced step: append one fresh cell. -/
def witStep : TracedStep Int where
  run := fun p => (p.1 ++ [7], p.2)
  alloc_only := by
    intro σ s i hi
    simp [List.getElem?_append, hi]

theorem c8_evaluate_frame_witness :
    preservedOn [3, 4] (evaluateHeap 2 witStep witStep "f" [3, 4]
      [("p", ⟨true, 0⟩)] []).1 ∧
    ∀ kv ∈ [(("p" : String), (⟨true, 0⟩ : TValue Nat))], kv.2.val < ([3, 4] : Store Int).length →
      (evaluateHeap 2 witStep witStep "f" [3, 4] [("p", ⟨true, 0⟩)] []).1[kv.2.val]? =
        ([3, 4] : Store Int)[kv.2.val]? :=
  c8_evaluate_frame 2 witStep witStep "f" [3, 4] [("p", ⟨true, 0⟩)] []

theorem foldl_min_le_init [LinearOrder α] (xs : List α) (b : α) :
    xs.foldl min b ≤ b := by
  induction xs generalizing b with
  | nil => exact le_refl b
  | cons x xs ih => exact le_trans (ih (min b x)) (min_le_left b x)

theorem foldl_min_le_mem [LinearOrder α] (xs : List α) (b : α) :
    ∀ x ∈ xs, xs.foldl min b ≤ x := by
  induction xs generalizing b with
  | nil => intro x hx; cases hx
  | cons y ys ih =>
    intro x hx
    rcases List.mem_cons.mp hx with rfl | hx
    · exact le_trans (foldl_min_le_init ys (min b x)) (min_le_right b x)
    · exact ih (min b y) x hx

theorem torchMin_le_mem [LinearOrder α] (l : List α) (mn : α)
    (h : torchMin l = some mn) : ∀ x ∈ l, mn ≤ x := by
  match l with
  | [] => cases h
  | y :: ys =>
    have hmn : mn = ys.foldl min y := by
      simpa [torchMin] using h.symm
    intro x hx
    rcases List.mem_cons.mp hx with rfl | hx
    · exact hmn ▸ foldl_min_le_init ys x
    · exact hmn ▸ foldl_min_le_mem ys y x hx

theorem pre_tell_dim1 [LinearOrder α] (m : HPOFitnessMonitor α) (l : List α)
    (hl : l ≠ []) :
    ∃ m', m.pre_tell (FitTensor.dim1 l) = some m' ∧
      m'.best_fitness ≤ m.best_fitness ∧
      ∀ x ∈ l, m'.best_fitness ≤ (x : WithTop α) := by
  match l with
  | [] => exact absurd rfl hl
  | y :: ys =>
    refine ⟨_, rfl, min_le_right _ _, fun x hx => ?_⟩
    calc min ((ys.foldl min y : α) : WithTop α) m.best_fitness
        ≤ ((ys.foldl min y : α) : WithTop α) := min_le_left _ _
      _ ≤ (x : WithTop α) := by
          exact_mod_cast torchMin_le_mem (y :: ys) _ rfl x hx

theorem pre_tell_dim1_le [LinearOrder α] {m m' : HPOFitnessMonitor α} {l : List α}
    (h : m.pre_tell (FitTensor.dim1 l) = some m') :
    m'.best_fitness ≤ m.best_fitness := by
  match l with
  | [] => simp [HPOFitnessMonitor.pre_tell, torchMin] at h
  | y :: ys =>
    have : m' = { m with best_fitness := min ((ys.foldl min y : α) : WithTop α) m.best_fitness } := by
      simpa [HPOFitnessMonitor.pre_tell, torchMin] using h.symm
    rw [this]
    exact min_le_right _ _

theorem preTellRun_cons [LinearOrder α] (m : HPOFitnessMonitor α) (l : List α)
    (fs : List (List α)) :
    preTellRun m (l :: fs) =
      (m.pre_tell (FitTensor.dim1 l)).bind fun m1 => preTellRun m1 fs := by
  cases h : m.pre_tell (FitTensor.dim1 l) <;>
    simp [preTellRun, List.foldlM_cons, h, Option.bind]

theorem preTellRun_le [LinearOrder α] (fs : List (List α))
    (m m2 : HPOFitnessMonitor α) (h : preTellRun m fs = some m2) :
    m2.best_fitness ≤ m.best_fitness := by
  induction fs generalizing m with
  | nil =>
    have : m = m2 := by simpa [preTellRun] using h
    exact this ▸ le_refl _
  | cons l fs ih =>
    rw [preTellRun_cons] at h
    cases hpt : m.pre_tell (FitTensor.dim1 l) with
    | none => rw [hpt] at h; cases h
    | some m1 =>
      rw [hpt] at h
      exact le_trans (ih m1 h) (pre_tell_dim1_le hpt)

theorem preTellRun_bound [LinearOrder α] (fs : List (List α))
    (m : HPOFitnessMonitor α) (hne : ∀ f ∈ fs, f ≠ []) :
    ∃ m', preTellRun m fs = some m' ∧
      ∀ f ∈ fs, ∀ x ∈ f, m'.best_fitness ≤ (x : WithTop α) := by
  induction fs generalizing m with
  | nil => exact ⟨m, rfl, by simp⟩
  | cons l fs ih =>
    obtain ⟨m1, h1, _, hbd1⟩ := pre_tell_dim1 m l (hne l (List.mem_cons_self l fs))
    obtain ⟨m', h', hbd⟩ := ih m1 fun f hf => hne f (List.mem_cons_of_mem l hf)
    refine ⟨m', by rw [preTellRun_cons, h1]; exact h', fun f hf x hx => ?_⟩
    rcases List.mem_cons.mp hf with rfl | hf'
    · exact le_trans (preTellRun_le fs m1 m' h') (hbd1 x hx)
    · exact hbd f hf' x hx

/-- C2: after `setup`, `tell_fitness` returns positive infinity before any
`pre_tell` call; along every sequence of `pre_tell` calls with
one-dimensional fitness tensors the value of `tell_fitness` never increases,
and once such calls have happened it is at most every fitness value seen so
far — the running minimum `best_fitness = min(best_fitness, min(fitness))`. -/
theorem c2_monitor_running_minimum [LinearOrder α] (cfg : HPOFitnessMonitorCfg)
    (fs : List (List α)) (hne : ∀ f ∈ fs, f ≠ []) :
    (cfg.setup α).tell_fitness = ⊤ ∧
    (∀ (m m2 : HPOFitnessMonitor α) (gs : List (List α)),
      preTellRun m gs = some m2 → m2.tell_fitness ≤ m.tell_fitness) ∧
    (∃ m', preTellRun (cfg.setup α) fs = some m' ∧
      ∀ f ∈ fs, ∀ x ∈ f, m'.tell_fitness ≤ (x : WithTop α)) := by
  refine ⟨rfl, fun m m2 gs h => preTellRun_le gs m m2 h, ?_⟩
  obtain ⟨m', h', hbd⟩ := preTellRun_bound fs (cfg.setup α) hne
  exact ⟨m', h', hbd⟩

theorem nodup_keys_inj {l : List (String × β)} (h : (l.map Prod.fst).Nodup)
    {k : String} {a b : β} (ha : (k, a) ∈ l) (hb : (k, b) ∈ l) : a = b := by
  induction l with
  | nil => cases ha
  | cons kv t ih =>
    rw [List.map_cons, List.nodup_cons] at h
    rcases List.mem_cons.mp ha with ha1 | ha1 <;> rcases List.mem_cons.mp hb with hb1 | hb1
    · have h2 : (k, a) = (k, b) := ha1.trans hb1.symm
      injection h2 with _ h4
    · cases ha1.symm
      exact absurd (List.mem_map_of_mem Prod.fst hb1) h.1
    · cases hb1.symm
      exact absurd (List.mem_map_of_mem Prod.fst ha1) h.1
    · exact ih h.2 ha1 hb1

theorem buildMonitorKeys_sound (initS monS : List (String × Nat)) :
    ∀ p ∈ buildMonitorKeys initS monS,
      ∃ r, (p.1, r) ∈ initS ∧ (p.2, r) ∈ monS := by
  intro p hp
  unfold buildMonitorKeys at hp
  rw [List.mem_filterMap] at hp
  obtain ⟨kv, hkv, hg⟩ := hp
  cases hf : monS.find? fun skv => skv.2 == kv.2 with
  | none => rw [hf] at hg; cases hg
  | some skv =>
    rw [hf] at hg
    injection hg with hg
    have hmem := List.mem_of_find?_eq_some hf
    have heq : skv.2 = kv.2 := by simpa using List.find?_some hf
    refine ⟨kv.2, ?_, ?_⟩
    · rw [← hg]
      simpa using hkv
    · rw [← hg]
      simp only [← heq]
      simpa using hmem

theorem buildMonitorKeys_no_alias (initS monS : List (String × Nat))
    (hik : (initS.map Prod.fst).Nodup) (hmk : (monS.map Prod.fst).Nodup)
    (k sk : String) (r1 r2 : Nat) (h1 : (k, r1) ∈ initS) (h2 : (sk, r2) ∈ monS)
    (hne : r1 ≠ r2) : (k, sk) ∉ buildMonitorKeys initS monS := by
  intro hmem
  obtain ⟨r, hr1, hr2⟩ := buildMonitorKeys_sound initS monS (k, sk) hmem
  have e1 : r = r1 := nodup_keys_inj hik hr1 h1
  have e2 : r = r2 := nodup_keys_inj hmk hr2 h2
  omega

theorem length_filterMap_eq_countP (g : α → Option β) (l : List α) :
    (l.filterMap g).length = l.countP fun a => (g a).isSome := by
  induction l with
  | nil => rfl
  | cons a t ih =>
    cases h : g a <;> simp [List.filterMap_cons, h, List.countP_cons, ih]

theorem buildMonitorKeys_length (initS monS : List (String × Nat)) :
    (buildMonitorKeys initS monS).length =
      (initS.map Prod.snd).countP fun r => decide (r ∈ monS.map Prod.snd) := by
  unfold buildMonitorKeys
  rw [length_filterMap_eq_countP, List.countP_map]
  apply List.countP_congr
  intro kv _
  cases hf : monS.find? fun skv => skv.2 == kv.2 with
  | none =>
    have hnm : kv.2 ∉ monS.map Prod.snd := by
      intro hmem
      rw [List.mem_map] at hmem
      obtain ⟨skv, hskv, he⟩ := hmem
      have := List.find?_eq_none.mp hf skv hskv
      simp [he] at this
    simp [hf, hnm, Function.comp]
  | some skv =>
    have hm : kv.2 ∈ monS.map Prod.snd := by
      refine List.mem_map.mpr ⟨skv, List.mem_of_find?_eq_some hf, ?_⟩
      simpa using List.find?_some hf
    simp [hf, hm, Function.comp]

theorem countP_mem_eq_length_iff (A B : List Nat) (hA : A.Nodup) (hB : B.Nodup) :
    (A.countP fun r => decide (r ∈ B)) = B.length ↔ ∀ b ∈ B, b ∈ A := by
  classical
  rw [List.countP_eq_length_filter]
  have hfil : (A.filter fun r => decide (r ∈ B)).Nodup := hA.filter _
  have hcard : (A.filter fun r => decide (r ∈ B)).length =
      (A.toFinset ∩ B.toFinset).card := by
    rw [← List.toFinset_card_of_nodup hfil]
    congr 1
    ext x
    simp [List.mem_toFinset, List.mem_filter, Finset.mem_inter]
  rw [hcard, ← List.toFinset_card_of_nodup hB]
  constructor
  · intro h b hb
    have hsub : A.toFinset ∩ B.toFinset ⊆ B.toFinset := Finset.inter_subset_right
    have hEq := Finset.eq_of_subset_of_card_le hsub (le_of_eq h.symm)
    have hbB : b ∈ B.toFinset := List.mem_toFinset.mpr hb
    rw [← hEq] at hbB
    exact List.mem_toFinset.mp (Finset.mem_inter.mp hbB).1
  · intro h
    have hEq : A.toFinset ∩ B.toFinset = B.toFinset := by
      apply Finset.inter_eq_right.mpr
      intro b hb
      exact List.mem_toFinset.mpr (h b (List.mem_toFinset.mp hb))
    rw [hEq]

theorem setup_ok_iff_length (n : Nat) (wf : WorkflowModel V)
    (hm : wf.monitorIsHPOMonitor = true) :
    (∃ r, HPOProblemWrapper.setup n wf = Except.ok r) ↔
      (buildMonitorKeys wf.initStateR wf.monitorState).length =
        wf.monitorState.length := by
  simp only [HPOProblemWrapper.setup, hm, Bool.true_eq_false, if_false]
  constructor
  · rintro ⟨r, hr⟩
    by_contra hl
    rw [if_neg hl] at hr
    exact Except.noConfusion hr
  · intro hl
    rw [if_pos hl]
    cases ho : wf.initStepOverride with
    | none => exact ⟨_, rfl⟩
    | some f => exact ⟨_, rfl⟩

/-- C4: the monitor state-key map is built by object identity, not value
equality — every recorded pair joins a state key and a monitor attribute that
hold the very same underlying object, the first identity match per state key
being recorded, and entries holding distinct objects are never aliased
together whatever their contents (which are never consulted); moreover, the
two states being honest dictionaries (no duplicate keys, values not
internally aliased), `setup` succeeds exactly when every monitor buffer is
reachable by identity from the workflow's root state, and fails fatally with
a configuration error otherwise. -/
theorem c4_monitor_keys_identity (n : Nat) (wf : WorkflowModel V)
    (hm : wf.monitorIsHPOMonitor = true)
    (hik : (wf.initStateR.map Prod.fst).Nodup)
    (hmk : (wf.monitorState.map Prod.fst).Nodup)
    (hiv : (wf.initStateR.map Prod.snd).Nodup)
    (hmv : (wf.monitorState.map Prod.snd).Nodup) :
    (∀ p ∈ buildMonitorKeys wf.initStateR wf.monitorState,
      ∃ r, (p.1, r) ∈ wf.initStateR ∧ (p.2, r) ∈ wf.monitorState) ∧
    (∀ k sk r1 r2, (k, r1) ∈ wf.initStateR → (sk, r2) ∈ wf.monitorState →
      r1 ≠ r2 → (k, sk) ∉ buildMonitorKeys wf.initStateR wf.monitorState) ∧
    ((∃ r, HPOProblemWrapper.setup n wf = Except.ok r) ↔
      ∀ p ∈ wf.monitorState, ∃ k, (k, p.2) ∈ wf.initStateR) := by
  refine ⟨buildMonitorKeys_sound _ _,
    fun k sk r1 r2 h1 h2 hne =>
      buildMonitorKeys_no_alias _ _ hik hmk k sk r1 r2 h1 h2 hne, ?_⟩
  rw [setup_ok_iff_length n wf hm, buildMonitorKeys_length,
    show wf.monitorState.length = (wf.monitorState.map Prod.snd).length from
      (List.length_map _ _).symm,
    countP_mem_eq_length_iff _ _ hiv hmv]
  constructor
  · intro h p hp
    have hb := h p.2 (List.mem_map_of_mem Prod.snd hp)
    rw [List.mem_map] at hb
    obtain ⟨⟨k1, r⟩, hkv, he⟩ := hb
    refine ⟨k1, ?_⟩
    have : r = p.2 := he
    rw [← this]
    exact hkv
  · intro h b hb
    rw [List.mem_map] at hb
    obtain ⟨p, hp, he⟩ := hb
    obtain ⟨k, hk⟩ := h p hp
    exact List.mem_map.mpr ⟨(k, p.2), hk, he⟩

/-- A concrete workflow model: the monitor's single buffer (identity 1) is
also held by the root state under key f. -/
def wfC4 : WorkflowModel Int :=
  ⟨true, [("best_fitness", 1)], [("a", 0), ("f", 1)], id, none⟩

theorem c4_monitor_keys_identity_witness :
    (∀ p ∈ buildMonitorKeys wfC4.initStateR wfC4.monitorState,
      ∃ r, (p.1, r) ∈ wfC4.initStateR ∧ (p.2, r) ∈ wfC4.monitorState) ∧
    (∀ k sk r1 r2, (k, r1) ∈ wfC4.initStateR → (sk, r2) ∈ wfC4.monitorState →
      r1 ≠ r2 → (k, sk) ∉ buildMonitorKeys wfC4.initStateR wfC4.monitorState) ∧
    ((∃ r, HPOProblemWrapper.setup 2 wfC4 = Except.ok r) ↔
      ∀ p ∈ wfC4.monitorState, ∃ k, (k, p.2) ∈ wfC4.initStateR) :=
  c4_monitor_keys_identity 2 wfC4 rfl (by decide) (by decide) (by decide) (by decide)

theorem c2_monitor_running_minimum_witness :
    ((⟨none⟩ : HPOFitnessMonitorCfg).setup Int).tell_fitness = ⊤ ∧
    (∀ (m m2 : HPOFitnessMonitor Int) (gs : List (List Int)),
      preTellRun m gs = some m2 → m2.tell_fitness ≤ m.tell_fitness) ∧
    (∃ m', preTellRun ((⟨none⟩ : HPOFitnessMonitorCfg).setup Int) [[3, 1], [2]] = some m' ∧
      ∀ f ∈ [[3, 1], [2]], ∀ x ∈ f, m'.tell_fitness ≤ ((x : Int) : WithTop Int)) :=
  c2_monitor_running_minimum ⟨none⟩ [[3, 1], [2]] (by simp)

theorem evaluate_ok_getMonitorFitness (w : HPOProblemWrapper n V)
    (hp0 : BState n V) (fit0 : Fin n → V) (h0 : w.evaluate hp0 = Except.ok fit0) :
    getMonitorFitness w.fitKey (stepLoop (vmapF w.stepF) (w.iterations - 1)
      (vmapF w.initStepF (dictUpdate w.init_state hp0))) = some fit0 := by
  cases hc : checkHyperParams w.init_state hp0 with
  | some e => simp [HPOProblemWrapper.evaluate, hc] at h0
  | none =>
    simp only [HPOProblemWrapper.evaluate, hc] at h0
    cases hg : getMonitorFitness w.fitKey (stepLoop (vmapF w.stepF) (w.iterations - 1)
        (vmapF w.initStepF (dictUpdate w.init_state hp0))) with
    | none => rw [hg] at h0; cases h0
    | some f0 =>
      rw [hg] at h0
      injection h0 with h0
      rw [h0]

/-- C1: batch independence of `evaluate` — two calls whose hyper-parameter
inputs agree on instance `j`'s slice (one being the other with some other
instance's slice changed) return fitness tensors that agree at instance `j`;
and each batched step determines instance `j`'s slice of its output from
instance `j`'s slice of its input alone, never reading or writing the other
instances' slices. -/
theorem c1_batch_independence (w : HPOProblemWrapper n V) (hp hp' : BState n V)
    (j : Fin n) (fit fit' : Fin n → V)
    (h1 : w.evaluate hp = Except.ok fit) (h2 : w.evaluate hp' = Except.ok fit')
    (h3 : slice hp j = slice hp' j) :
    fit j = fit' j ∧
    ∀ (f : SState V → SState V) (bs : BState n V),
      slice (vmapF f bs) j = stepSlice f (slice bs j) := by
  refine ⟨?_, fun f bs => slice_vmapF f bs j⟩
  have e1 := evaluate_ok_getMonitorFitness w hp fit h1
  have e2 := evaluate_ok_getMonitorFitness w hp' fit' h2
  have hsl : slice (stepLoop (vmapF w.stepF) (w.iterations - 1)
        (vmapF w.initStepF (dictUpdate w.init_state hp))) j =
      slice (stepLoop (vmapF w.stepF) (w.iterations - 1)
        (vmapF w.initStepF (dictUpdate w.init_state hp'))) j := by
    rw [slice_stepLoop, slice_stepLoop, slice_vmapF, slice_vmapF,
      slice_dictUpdate, slice_dictUpdate, h3]
  rw [getMonitorFitness, Option.map_eq_some'] at e1 e2
  obtain ⟨tv1, htv1, hv1⟩ := e1
  obtain ⟨tv2, htv2, hv2⟩ := e2
  have l1 : lookupKV w.fitKey (slice (stepLoop (vmapF w.stepF) (w.iterations - 1)
      (vmapF w.initStepF (dictUpdate w.init_state hp))) j) =
      some (tv1.map fun t => t j) := by
    rw [slice, lookupKV_mapVals, htv1]
    rfl
  have l2 : lookupKV w.fitKey (slice (stepLoop (vmapF w.stepF) (w.iterations - 1)
      (vmapF w.initStepF (dictUpdate w.init_state hp'))) j) =
      some (tv2.map fun t => t j) := by
    rw [slice, lookupKV_mapVals, htv2]
    rfl
  rw [hsl, l2] at l1
  injection l1 with l1
  have hval : tv1.val j = tv2.val j := congrArg TValue.val l1.symm
  rw [← hv1, ← hv2]
  exact hval

/-- A first hyper-parameter input over two instances. -/
def witHPa : BState 2 Int := [("p", ⟨true, fun i => if i = 0 then 10 else 20⟩)]

/-- The same hyper-parameter input with only instance 0's slice changed. -/
def witHPb : BState 2 Int := [("p", ⟨true, fun i => if i = 0 then 99 else 20⟩)]

theorem c1_batch_independence_witness :
    ((fun _ => 5) : Fin 2 → Int) 1 = ((fun _ => 5) : Fin 2 → Int) 1 ∧
    ∀ (f : SState Int → SState Int) (bs : BState 2 Int),
      slice (vmapF f bs) 1 = stepSlice f (slice bs 1) :=
  c1_batch_independence witWrapper witHPa witHPb 1 (fun _ => 5) (fun _ => 5)
    rfl rfl rfl

/-- C3: on validated input, `evaluate` applies the (possibly special)
first-step function exactly once to the cloned initial state overwritten with
the supplied hyper-parameters, then the ordinary compiled step exactly
`iterations - 1` more times in strict sequence (each application consuming
the previous output), then the fitness-read function, and returns the
per-instance fitness tensor indexed by the `num_instances` instances. -/
theorem c3_evaluate_rollout (w : HPOProblemWrapper n V) (hp : BState n V)
    (fit : Fin n → V)
    (hchk : checkHyperParams w.init_state hp = none)
    (hfit : getMonitorFitness w.fitKey
      ((vmapF w.stepF)^[w.iterations - 1]
        (vmapF w.initStepF (dictUpdate w.init_state hp))) = some fit) :
    w.evaluate hp = Except.ok fit := by
  rw [← stepLoop_eq_iterate] at hfit
  simp [HPOProblemWrapper.evaluate, hchk, hfit]

theorem c3_evaluate_rollout_witness :
    witWrapper.evaluate [] = Except.ok ((fun _ => 5) : Fin 2 → Int) :=
  c3_evaluate_rollout witWrapper [] (fun _ => 5) rfl rfl

end HPOW
